import Mathlib

/-!
Verification of `async-broadcaster` (src/index.ts).

`AsyncBroadcaster<T>` adapts a single upstream async iterable into a
multicast source.  Its mutable fields are:

  * `_buffer : Array<T>`            — shared append-only (front-trimmed) buffer
  * `_nextGeneratorID : number`     — fresh-identity counter
  * `_indices : Map<number,number>` — listener id ↦ read cursor
  * `_nextValue?` / `_resolveNextValue?` — the shared pending-value signal

We embed the broadcaster state shallowly, adding ghost fields that record
the full production history, the total number of values trimmed from the
buffer's front, the production index at which each listener registered,
the list of values each listener has been yielded, and for each listener
suspended on the pending-value signal the production length at the moment
it suspended (the signal it awaits resolves exactly when a later value is
appended).  Scheduling is cooperative and single-threaded, so an execution
is an interleaving of atomic steps: one upstream append, one listener
registration, one pull-loop iteration, one resumption of a suspended
listener, or one early exit.  `Step` is that small-step relation and
`Reachable` its reflexive-transitive closure from the initial state.
-/

namespace AsyncBroadcaster

/-- Association-list lookup, first match wins — `Map.prototype.get`. -/
def lookupk {β : Type} : List (Nat × β) → Nat → Option β
  | [], _ => none
  | (a, b) :: t, k => if a = k then some b else lookupk t k

/-- Association-list update in place, appending when the key is absent —
`Map.prototype.set` (insertion order preserved, existing key overwritten). -/
def setk {β : Type} : List (Nat × β) → Nat → β → List (Nat × β)
  | [], k, v => [(k, v)]
  | (a, b) :: t, k, v => if a = k then (k, v) :: t else (a, b) :: setk t k v

/-- Association-list removal of the (first) entry for a key —
`Map.prototype.delete`. -/
def erasek {β : Type} : List (Nat × β) → Nat → List (Nat × β)
  | [], _ => []
  | (a, b) :: t, k => if a = k then t else (a, b) :: erasek t k

/-- `Math.min(...this._indices.values())`: `none` models the `Math.min()`
of an empty argument list, which is `Infinity` in JavaScript. -/
def minCursor : List (Nat × Nat) → Option Nat
  | [] => none
  | (_, c) :: t =>
    match minCursor t with
    | none => some c
    | some m => some (Nat.min c m)

/-- The broadcaster state.  `buffer`, `nextGeneratorID`, `indices` and
`signalOutstanding` embed the fields of `AsyncBroadcaster`; `pushDone`
records whether the `_pushAll` ingestion loop has finished; the remaining
fields are ghost history used to state the correctness properties. -/
structure BState (T : Type) where
  /-- `_buffer` -/
  buffer : List T
  /-- `_nextGeneratorID` -/
  nextGeneratorID : Nat
  /-- `_indices` as an insertion-ordered association list -/
  indices : List (Nat × Nat)
  /-- whether `_nextValue` currently holds an unresolved promise -/
  signalOutstanding : Bool
  /-- whether the `for await` loop of `_pushAll` has terminated -/
  pushDone : Bool
  /-- ghost: every value the upstream source has produced, in order -/
  produced : List T
  /-- ghost: how many values have been spliced off the buffer's front -/
  trimmed : Nat
  /-- ghost: `produced.length` at the moment each listener registered -/
  joinPos : Nat → Nat
  /-- ghost: the values yielded to each listener, in order -/
  observed : Nat → List T
  /-- ghost: for a listener suspended on the pending-value signal, the
  `produced.length` at the moment it began awaiting -/
  waiting : Nat → Option Nat

/-- The state of a freshly constructed broadcaster. -/
def initState (T : Type) : BState T where
  buffer := []
  nextGeneratorID := 0
  indices := []
  signalOutstanding := false
  pushDone := false
  produced := []
  trimmed := 0
  joinPos := fun _ => 0
  observed := fun _ => []
  waiting := fun _ => none

/-- `_trim`:
```
let minIndex = Math.min(...this._indices.values());
if (minIndex > 0) {
  this._buffer.splice(0, minIndex);
  for (const [i, n] of this._indices.entries()) {
    this._indices.set(i, n - minIndex);
  }
}
```
When `_indices` is empty, `Math.min()` is `Infinity`, the guard holds, and
`splice(0, Infinity)` removes every element of the buffer while the
cursor-rebasing loop runs zero times. -/
def trim {T : Type} (s : BState T) : BState T :=
  match minCursor s.indices with
  | none =>
    { s with buffer := [], trimmed := s.trimmed + s.buffer.length }
  | some m =>
    if 0 < m then
      { s with
        buffer := s.buffer.drop m
        trimmed := s.trimmed + m
        indices := s.indices.map fun p => (p.1, p.2 - m) }
    else s

/-- `_cleanup(id)`: `this._indices.delete(id); this._trim();` -/
def cleanup {T : Type} (s : BState T) (id : Nat) : BState T :=
  trim { s with indices := erasek s.indices id }

/-- One iteration of the `for await` body of `_pushAll`:
```
this._buffer.push(v);
this._resolveNextValue?.();
this._nextValue = this._resolveNextValue = undefined;
```
Resolving the signal is what later lets suspended listeners resume. -/
def pushValue {T : Type} (s : BState T) (v : T) : BState T :=
  { s with
    buffer := s.buffer ++ [v]
    produced := s.produced ++ [v]
    signalOutstanding := false }

/-- The prologue of `_values`, run when the generator's first `next()` is
called:
```
const id = this._nextGeneratorID++;
this._indices.set(id, this._buffer.length);
```
Returns the new state and the allocated id.  The ghost `joinPos` records
the production length at this moment and `observed id` starts empty. -/
def registerListener {T : Type} (s : BState T) : BState T × Nat :=
  let id := s.nextGeneratorID
  ({ s with
      nextGeneratorID := id + 1
      indices := setk s.indices id s.buffer.length
      joinPos := fun j => if j = id then s.produced.length else s.joinPos j
      observed := fun j => if j = id then [] else s.observed j },
   id)

/-- The tail of a `_values` loop iteration once a cursor `c` for `id` is in
hand:
```
const v = this._buffer[index];
this._indices.set(id, ++index);
this._trim();
yield v!;
```
An out-of-bounds read would yield `undefined`; we record the read as
`s.buffer[c]?` and append it (when present) to the ghost observation
log. -/
def yieldStep {T : Type} (s : BState T) (id c : Nat) : BState T :=
  trim
    { s with
      indices := setk s.indices id (c + 1)
      observed := fun j =>
        if j = id then s.observed id ++ s.buffer[c]?.toList
        else s.observed j }

/-- The outcome of one resumption of a listener's pull loop. -/
inductive PullStep (T : Type) where
  /-- the loop reached `yield v` (`none` models yielding `undefined`) -/
  | yielded (v : Option T)
  /-- the loop suspended on `await waitOrAbort(this._nextValue)` -/
  | waited
  /-- the generator returned: its sequence is over -/
  | done
deriving DecidableEq

/-- One iteration of the `while (signal?.aborted !== true)` loop of
`_values` for listener `id`, entered from the loop head (not from a
suspension).  If the signal is aborted the loop exits and the `finally`
block runs `_cleanup(id)`.  Otherwise the cursor is read; at the end of
the buffer the loop ensures `_nextValue` exists and suspends on it
(recording the suspension in the ghost `waiting`); below the end it
yields `buffer[cursor]` and advances.  The `none` branch mirrors
`this._indices.get(id)!`, which cannot occur for a registered listener. -/
def pullStep {T : Type} (s : BState T) (id : Nat) (aborted : Bool) :
    BState T × PullStep T :=
  if aborted then (cleanup s id, PullStep.done)
  else
    match lookupk s.indices id with
    | none => (s, PullStep.done)
    | some c =>
      if c = s.buffer.length then
        ({ s with
            signalOutstanding := true
            waiting := fun j =>
              if j = id then some s.produced.length else s.waiting j },
         PullStep.waited)
      else (yieldStep s id c, PullStep.yielded s.buffer[c]?)

/-- Resumption of a listener suspended on the pending-value signal:
```
try {
  await waitOrAbort(this._nextValue);
} finally {
  if (signal?.aborted) { this._cleanup(id); return; }
}
index = this._indices.get(id)!;
const v = this._buffer[index]; ...
```
After the `await`, if the signal aborted the generator cleans up and
returns; otherwise the cursor is re-read and the value at it is yielded
with no re-check of the at-end condition. -/
def wakeStep {T : Type} (s : BState T) (id : Nat) (aborted : Bool) :
    BState T × PullStep T :=
  let s0 := { s with waiting := fun j => if j = id then none else s.waiting j }
  if aborted then (cleanup s0 id, PullStep.done)
  else
    match lookupk s0.indices id with
    | none => (s0, PullStep.done)
    | some c => (yieldStep s0 id c, PullStep.yielded s0.buffer[c]?)

/-- Obtaining a listener sequence:
`iterable[Symbol.asyncIterator]: () => this._values()` (and
`iterable.values(options)` likewise) merely constructs the async
generator object; by JavaScript async-generator semantics the body of
`_values` does not run until the first `next()` call, so no broadcaster
field is touched. -/
def obtainSequence {T : Type} (s : BState T) : BState T := s

/-- One atomic step of the cooperative interleaving.  Suspension points
cut the code into these pieces exactly: the ingestion loop appends one
value per resumption; a listener registers (prologue of `_values`), runs
one loop iteration from the loop head, resumes from a suspension (only
after the signal it awaits has resolved — i.e. a strictly later value was
produced — or its abort fired), or exits early at a yield point
(consumer `break`/`return`/`throw`, or the abort flag observed at the
loop head). -/
inductive Step {T : Type} : BState T → BState T → Prop where
  /-- `_pushAll` receives one more upstream value -/
  | push (s : BState T) (v : T) (h : s.pushDone = false) :
      Step s (pushValue s v)
  /-- the upstream iterable completes; `_pushAll` returns -/
  | pushEnd (s : BState T) (h : s.pushDone = false) :
      Step s { s with pushDone := true }
  /-- a new listener's first `next()` runs the `_values` prologue -/
  | register (s : BState T) :
      Step s (registerListener s).1
  /-- one `_values` loop iteration from the loop head, with the abort
  flag as currently observed -/
  | pull (s : BState T) (id : Nat) (aborted : Bool)
      (hw : s.waiting id = none) :
      Step s (pullStep s id aborted).1
  /-- a suspended listener resumes: either its abort fired, or the
  pending-value signal it awaited resolved, which happens exactly when a
  value was appended after it suspended -/
  | wake (s : BState T) (id : Nat) (aborted : Bool) (p : Nat)
      (hw : s.waiting id = some p)
      (hres : aborted = true ∨ p < s.produced.length) :
      Step s (wakeStep s id aborted).1
  /-- the consumer stops the loop at a yield point (break, return, or a
  thrown error); the generator's `finally` runs `_cleanup(id)` -/
  | exit (s : BState T) (id : Nat) (hw : s.waiting id = none) :
      Step s (cleanup s id)

/-- States reachable from a freshly constructed broadcaster. -/
inductive Reachable {T : Type} : BState T → Prop where
  | init : Reachable (initState T)
  | step {s s' : BState T} (hr : Reachable s) (hs : Step s s') : Reachable s'

/-- Zero or more steps between two states. -/
inductive Steps {T : Type} : BState T → BState T → Prop where
  | refl (s : BState T) : Steps s s
  | tail {s s' s'' : BState T} (h : Steps s s') (hs : Step s' s'') : Steps s s''

/-! ### Association-list lemmas -/

theorem lookupk_eq_none_iff {β : Type} (l : List (Nat × β)) (k : Nat) :
    lookupk l k = none ↔ k ∉ l.map Prod.fst := by
  induction l with
  | nil => simp [lookupk]
  | cons a t ih =>
    obtain ⟨x, b⟩ := a
    by_cases h : x = k
    · subst h
      simp [lookupk]
    · have h' : ¬ k = x := fun hk => h hk.symm
      simp [lookupk, h, h', ih]

theorem mem_of_lookupk {β : Type} {l : List (Nat × β)} {k : Nat} {b : β}
    (h : lookupk l k = some b) : (k, b) ∈ l := by
  induction l with
  | nil => simp [lookupk] at h
  | cons a t ih =>
    obtain ⟨x, c⟩ := a
    by_cases hx : x = k
    · simp [lookupk, hx] at h
      simp [hx, h]
    · simp [lookupk, hx] at h
      simp [ih h]

theorem lookupk_setk_self {β : Type} (l : List (Nat × β)) (k : Nat) (v : β) :
    lookupk (setk l k v) k = some v := by
  induction l with
  | nil => simp [setk, lookupk]
  | cons a t ih =>
    obtain ⟨x, b⟩ := a
    by_cases h : x = k <;> simp [setk, lookupk, h, ih]

theorem lookupk_setk_ne {β : Type} (l : List (Nat × β)) (k j : Nat) (v : β)
    (h : j ≠ k) : lookupk (setk l k v) j = lookupk l j := by
  have h' : ¬ k = j := fun hk => h hk.symm
  induction l with
  | nil => simp [setk, lookupk, h']
  | cons a t ih =>
    obtain ⟨x, b⟩ := a
    by_cases hx : x = k
    · subst hx
      simp [setk, lookupk, h']
    · by_cases hj : x = j
      · subst hj
        simp [setk, lookupk, hx]
      · simp [setk, lookupk, hx, hj, ih]

theorem keys_setk_of_lookupk_some {β : Type} {l : List (Nat × β)} {k : Nat}
    (v : β) {b : β} (h : lookupk l k = some b) :
    (setk l k v).map Prod.fst = l.map Prod.fst := by
  induction l with
  | nil => simp [lookupk] at h
  | cons a t ih =>
    obtain ⟨x, c⟩ := a
    by_cases hx : x = k
    · simp [setk, hx]
    · simp [lookupk, hx] at h
      simp [setk, hx, ih h]

theorem keys_setk_of_lookupk_none {β : Type} {l : List (Nat × β)} {k : Nat}
    (v : β) (h : lookupk l k = none) :
    (setk l k v).map Prod.fst = l.map Prod.fst ++ [k] := by
  induction l with
  | nil => simp [setk]
  | cons a t ih =>
    obtain ⟨x, c⟩ := a
    by_cases hx : x = k
    · simp [lookupk, hx] at h
    · simp [lookupk, hx] at h
      simp [setk, hx, ih h]

theorem keys_erasek_sublist {β : Type} (l : List (Nat × β)) (k : Nat) :
    ((erasek l k).map Prod.fst).Sublist (l.map Prod.fst) := by
  induction l with
  | nil => simp [erasek]
  | cons a t ih =>
    obtain ⟨x, b⟩ := a
    by_cases hx : x = k
    · simp only [erasek, if_pos hx]
      exact (List.sublist_cons_self (x, b) t).map Prod.fst
    · simpa [erasek, hx] using ih.cons₂ x

theorem lookupk_erasek_ne {β : Type} (l : List (Nat × β)) (k j : Nat)
    (h : j ≠ k) : lookupk (erasek l k) j = lookupk l j := by
  have h' : ¬ k = j := fun hk => h hk.symm
  induction l with
  | nil => simp [erasek]
  | cons a t ih =>
    obtain ⟨x, b⟩ := a
    by_cases hx : x = k
    · subst hx
      simp [erasek, lookupk, h']
    · by_cases hj : x = j
      · subst hj
        simp [erasek, lookupk, hx]
      · simp [erasek, lookupk, hx, hj, ih]

theorem lookupk_erasek_self {β : Type} {l : List (Nat × β)} {k : Nat}
    (nd : (l.map Prod.fst).Nodup) : lookupk (erasek l k) k = none := by
  induction l with
  | nil => simp [erasek, lookupk]
  | cons a t ih =>
    obtain ⟨x, b⟩ := a
    simp only [List.map_cons, List.nodup_cons] at nd
    by_cases hx : x = k
    · subst hx
      simp only [erasek, if_pos rfl]
      exact (lookupk_eq_none_iff t x).2 nd.1
    · simp [erasek, lookupk, hx, ih nd.2]

theorem lookupk_map_snd {β γ : Type} (l : List (Nat × β)) (f : β → γ)
    (k : Nat) :
    lookupk (l.map fun p => (p.1, f p.2)) k = (lookupk l k).map f := by
  induction l with
  | nil => simp [lookupk]
  | cons a t ih =>
    obtain ⟨x, b⟩ := a
    by_cases h : x = k <;> simp [lookupk, h, ih]

theorem keys_map_snd {β γ : Type} (l : List (Nat × β)) (f : β → γ) :
    (l.map fun p => (p.1, f p.2)).map Prod.fst = l.map Prod.fst := by
  induction l with
  | nil => rfl
  | cons a t ih => simp [ih]

/-! ### `minCursor` lemmas -/

theorem minCursor_eq_none_iff (l : List (Nat × Nat)) :
    minCursor l = none ↔ l = [] := by
  cases l with
  | nil => simp [minCursor]
  | cons a t =>
    simp only [minCursor]
    cases minCursor t <;> simp

theorem minCursor_le_of_mem {l : List (Nat × Nat)} {m : Nat}
    (h : minCursor l = some m) : ∀ p ∈ l, m ≤ p.2 := by
  induction l generalizing m with
  | nil => simp
  | cons a t ih =>
    intro p hp
    simp only [minCursor] at h
    cases ht : minCursor t with
    | none =>
      rw [ht] at h
      rcases List.mem_cons.1 hp with hh | hh
      · cases h
        exact hh ▸ le_rfl
      · rw [(minCursor_eq_none_iff t).1 ht] at hh
        simp at hh
    | some m' =>
      rw [ht] at h
      cases h
      rcases List.mem_cons.1 hp with hh | hh
      · exact hh ▸ Nat.min_le_left _ _
      · exact le_trans (Nat.min_le_right _ _) (ih ht p hh)

theorem minCursor_le_lookupk {l : List (Nat × Nat)} {m : Nat}
    (h : minCursor l = some m) {id c : Nat} (hl : lookupk l id = some c) :
    m ≤ c :=
  minCursor_le_of_mem h (id, c) (mem_of_lookupk hl)

theorem minCursor_attained {l : List (Nat × Nat)} {m : Nat}
    (h : minCursor l = some m) : ∃ p ∈ l, p.2 = m := by
  induction l generalizing m with
  | nil => simp [minCursor] at h
  | cons a t ih =>
    simp only [minCursor] at h
    cases ht : minCursor t with
    | none =>
      rw [ht] at h
      cases h
      exact ⟨a, List.mem_cons_self a t, rfl⟩
    | some m' =>
      rw [ht] at h
      cases h
      rcases Nat.le_total a.2 m' with hle | hle
      · refine ⟨a, List.mem_cons_self a t, ?_⟩
        simp only [Nat.min_def]
        split <;> omega
      · obtain ⟨p, hp, hpm⟩ := ih ht
        refine ⟨p, List.mem_cons_of_mem a hp, ?_⟩
        rw [hpm]
        simp only [Nat.min_def]
        split <;> omega

theorem nat_min_sub (a b c : Nat) :
    Nat.min a b - c = Nat.min (a - c) (b - c) := by
  simp only [Nat.min_def]
  split <;> split <;> omega

theorem minCursor_map_sub (l : List (Nat × Nat)) (m : Nat) :
    minCursor (l.map fun p => (p.1, p.2 - m))
      = (minCursor l).map fun c => c - m := by
  induction l with
  | nil => simp [minCursor]
  | cons a t ih =>
    simp only [List.map_cons, minCursor, ih]
    cases minCursor t <;> simp [nat_min_sub]

theorem mem_keys_of_mem {β : Type} {l : List (Nat × β)} {k : Nat} {b : β}
    (h : (k, b) ∈ l) : k ∈ l.map Prod.fst :=
  List.mem_map_of_mem Prod.fst h

theorem lookupk_of_mem {β : Type} {l : List (Nat × β)}
    (nd : (l.map Prod.fst).Nodup) {k : Nat} {b : β} (h : (k, b) ∈ l) :
    lookupk l k = some b := by
  induction l with
  | nil => simp at h
  | cons a t ih =>
    obtain ⟨x, c⟩ := a
    simp only [List.map_cons, List.nodup_cons] at nd
    rcases List.mem_cons.1 h with hh | hh
    · cases hh
      simp [lookupk]
    · by_cases hx : x = k
      · subst hx
        exact absurd (mem_keys_of_mem hh) nd.1
      · simp [lookupk, hx, ih nd.2 hh]

/-! ### The reachability invariant -/

/-- The state invariant maintained by every step of the broadcaster.
The buffer is the produced history minus its trimmed front; every
registered cursor is in bounds; ids at or above `nextGeneratorID` are
unused; each listener's observation log is exactly the slice of the
production history from its join position to its current absolute
position `trimmed + cursor`; and a listener suspended on the
pending-value signal is registered, with the recorded production length
equal to its absolute position. -/
structure Inv {T : Type} (s : BState T) : Prop where
  buf_eq : s.buffer = s.produced.drop s.trimmed
  abs_len : s.trimmed + s.buffer.length = s.produced.length
  nodupKeys : (s.indices.map Prod.fst).Nodup
  fresh : ∀ id, s.nextGeneratorID ≤ id →
    lookupk s.indices id = none ∧ s.waiting id = none ∧
      s.observed id = [] ∧ s.joinPos id = 0
  cursor_le : ∀ id c, lookupk s.indices id = some c → c ≤ s.buffer.length
  join_le : ∀ id c, lookupk s.indices id = some c →
    s.joinPos id ≤ s.trimmed + c
  obs_eq : ∀ id c, lookupk s.indices id = some c →
    s.observed id
      = (s.produced.drop (s.joinPos id)).take (s.trimmed + c - s.joinPos id)
  wait_reg : ∀ id p, s.waiting id = some p →
    ∃ c, lookupk s.indices id = some c ∧ s.trimmed + c = p

theorem inv_init (T : Type) : Inv (initState T) := by
  constructor <;> simp [initState, lookupk]

theorem trim_eq_of_none {T : Type} {s : BState T}
    (h : minCursor s.indices = none) :
    trim s = { s with buffer := [], trimmed := s.trimmed + s.buffer.length } := by
  unfold trim
  rw [h]

theorem trim_eq_of_pos {T : Type} {s : BState T} {m : Nat}
    (h : minCursor s.indices = some m) (hm : 0 < m) :
    trim s
      = { s with
          buffer := s.buffer.drop m
          trimmed := s.trimmed + m
          indices := s.indices.map fun p => (p.1, p.2 - m) } := by
  unfold trim
  rw [h]
  simp [hm]

theorem trim_eq_of_zero {T : Type} {s : BState T}
    (h : minCursor s.indices = some 0) : trim s = s := by
  unfold trim
  rw [h]
  simp

theorem inv_trim {T : Type} {s : BState T} (hI : Inv s) : Inv (trim s) := by
  cases hmc : minCursor s.indices with
  | none =>
    have hnil : s.indices = [] := (minCursor_eq_none_iff _).1 hmc
    rw [trim_eq_of_none hmc]
    constructor
    · show ([] : List T) = s.produced.drop (s.trimmed + s.buffer.length)
      rw [hI.abs_len, List.drop_length]
    · show s.trimmed + s.buffer.length + ([] : List T).length = s.produced.length
      simpa using hI.abs_len
    · exact hI.nodupKeys
    · intro id hid
      exact hI.fresh id hid
    · intro id c hc
      rw [hnil] at hc
      simp [lookupk] at hc
    · intro id c hc
      rw [hnil] at hc
      simp [lookupk] at hc
    · intro id c hc
      rw [hnil] at hc
      simp [lookupk] at hc
    · intro id p hp
      obtain ⟨c, hc, -⟩ := hI.wait_reg id p hp
      rw [hnil] at hc
      simp [lookupk] at hc
  | some m =>
    rcases Nat.eq_zero_or_pos m with hm | hm
    · subst hm
      rw [trim_eq_of_zero hmc]
      exact hI
    · have hmle : ∀ {id c}, lookupk s.indices id = some c → m ≤ c :=
        fun h => minCursor_le_lookupk hmc h
      have hmlen : m ≤ s.buffer.length := by
        obtain ⟨p, hp, hpm⟩ := minCursor_attained hmc
        have := hI.cursor_le p.1 p.2 (lookupk_of_mem hI.nodupKeys hp)
        omega
      rw [trim_eq_of_pos hmc hm]
      have hmap : ∀ id : Nat,
          lookupk (s.indices.map fun p => (p.1, p.2 - m)) id
            = (lookupk s.indices id).map fun c => c - m :=
        fun id => lookupk_map_snd s.indices (fun c => c - m) id
      have hlook : ∀ {id c'},
          lookupk (s.indices.map fun p => (p.1, p.2 - m)) id = some c' →
          ∃ c, lookupk s.indices id = some c ∧ c' = c - m := by
        intro id c' h
        rw [hmap id] at h
        cases hl : lookupk s.indices id with
        | none => rw [hl] at h; simp at h
        | some c =>
          rw [hl] at h
          simp only [Option.map_some'] at h
          exact ⟨c, rfl, (Option.some.injEq _ _ ▸ h).symm⟩
      constructor
    -- buf_eq
      · show s.buffer.drop m = s.produced.drop (s.trimmed + m)
        rw [hI.buf_eq, List.drop_drop, Nat.add_comm]
    -- abs_len
      · show s.trimmed + m + (s.buffer.drop m).length = s.produced.length
        rw [List.length_drop]
        have := hI.abs_len
        omega
    -- nodupKeys
      · show ((s.indices.map fun p => (p.1, p.2 - m)).map Prod.fst).Nodup
        have hkeys : (s.indices.map fun p => (p.1, p.2 - m)).map Prod.fst
            = s.indices.map Prod.fst := keys_map_snd s.indices (fun c => c - m)
        rw [hkeys]
        exact hI.nodupKeys
    -- fresh
      · intro id hid
        obtain ⟨h1, h2, h3, h4⟩ := hI.fresh id hid
        refine ⟨?_, h2, h3, h4⟩
        show lookupk (s.indices.map fun p => (p.1, p.2 - m)) id = none
        rw [hmap id, h1]
        rfl
    -- cursor_le
      · intro id c' h
        obtain ⟨c, hc, rfl⟩ := hlook h
        have h1 := hI.cursor_le id c hc
        show c - m ≤ (s.buffer.drop m).length
        rw [List.length_drop]
        omega
    -- join_le
      · intro id c' h
        obtain ⟨c, hc, rfl⟩ := hlook h
        have h1 := hI.join_le id c hc
        have h2 := hmle hc
        show s.joinPos id ≤ s.trimmed + m + (c - m)
        omega
    -- obs_eq
      · intro id c' h
        obtain ⟨c, hc, rfl⟩ := hlook h
        have h1 := hI.obs_eq id c hc
        have h2 := hmle hc
        show s.observed id
          = (s.produced.drop (s.joinPos id)).take (s.trimmed + m + (c - m) - s.joinPos id)
        have : s.trimmed + m + (c - m) - s.joinPos id
            = s.trimmed + c - s.joinPos id := by omega
        rw [this]
        exact h1
    -- wait_reg
      · intro id p hp
        obtain ⟨c, hc, hcp⟩ := hI.wait_reg id p hp
        have h2 := hmle hc
        refine ⟨c - m, ?_, ?_⟩
        · show lookupk (s.indices.map fun q => (q.1, q.2 - m)) id = some (c - m)
          rw [hmap id, hc]
          rfl
        · show s.trimmed + m + (c - m) = p
          omega

theorem lookupk_erasek_some {β : Type} {l : List (Nat × β)} {k j : Nat}
    {b : β} (nd : (l.map Prod.fst).Nodup)
    (h : lookupk (erasek l k) j = some b) : lookupk l j = some b := by
  by_cases hj : j = k
  · subst hj
    rw [lookupk_erasek_self nd] at h
    exact absurd h (by simp)
  · rw [lookupk_erasek_ne l k j hj] at h
    exact h

theorem id_lt_next {T : Type} {s : BState T} (hI : Inv s) {id c : Nat}
    (hc : lookupk s.indices id = some c) : id < s.nextGeneratorID := by
  by_contra h
  push_neg at h
  rw [(hI.fresh id h).1] at hc
  exact absurd hc (by simp)

theorem inv_pushValue {T : Type} {s : BState T} (hI : Inv s) (v : T) :
    Inv (pushValue s v) := by
  have habs := hI.abs_len
  constructor
  · show s.buffer ++ [v] = (s.produced ++ [v]).drop s.trimmed
    rw [List.drop_append_of_le_length (by omega), hI.buf_eq]
  · show s.trimmed + (s.buffer ++ [v]).length = (s.produced ++ [v]).length
    simp only [List.length_append, List.length_cons, List.length_nil]
    omega
  · exact hI.nodupKeys
  · exact hI.fresh
  · intro id c hc
    have h1 : lookupk s.indices id = some c := hc
    have := hI.cursor_le id c h1
    show c ≤ (s.buffer ++ [v]).length
    simp only [List.length_append, List.length_cons, List.length_nil]
    omega
  · exact hI.join_le
  · intro id c hc
    have h1 : lookupk s.indices id = some c := hc
    have h2 := hI.obs_eq id c h1
    have h3 := hI.join_le id c h1
    have h4 := hI.cursor_le id c h1
    have h5 : s.trimmed + c - s.joinPos id
        ≤ (s.produced.drop (s.joinPos id)).length := by
      rw [List.length_drop]
      omega
    show s.observed id
      = ((s.produced ++ [v]).drop (s.joinPos id)).take (s.trimmed + c - s.joinPos id)
    rw [List.drop_append_of_le_length (by omega),
      List.take_append_of_le_length h5]
    exact h2
  · exact hI.wait_reg

theorem registerListener_eq {T : Type} (s : BState T) :
    registerListener s
      = ({ s with
          nextGeneratorID := s.nextGeneratorID + 1
          indices := setk s.indices s.nextGeneratorID s.buffer.length
          joinPos := fun j =>
            if j = s.nextGeneratorID then s.produced.length else s.joinPos j
          observed := fun j =>
            if j = s.nextGeneratorID then [] else s.observed j },
        s.nextGeneratorID) := rfl

theorem inv_register {T : Type} {s : BState T} (hI : Inv s) :
    Inv (registerListener s).1 := by
  have hnone : lookupk s.indices s.nextGeneratorID = none :=
    (hI.fresh s.nextGeneratorID le_rfl).1
  have habs := hI.abs_len
  rw [registerListener_eq]
  constructor
  · exact hI.buf_eq
  · exact hI.abs_len
  · show ((setk s.indices s.nextGeneratorID s.buffer.length).map Prod.fst).Nodup
    rw [keys_setk_of_lookupk_none _ hnone]
    refine hI.nodupKeys.append (List.nodup_singleton _) ?_
    intro a ha hb
    simp only [List.mem_singleton] at hb
    subst hb
    exact ((lookupk_eq_none_iff _ _).1 hnone) ha
  · intro id hid
    have hid' : s.nextGeneratorID + 1 ≤ id := hid
    have hne : id ≠ s.nextGeneratorID := by omega
    obtain ⟨h1, h2, h3, h4⟩ := hI.fresh id (by omega)
    refine ⟨?_, h2, ?_, ?_⟩
    · show lookupk (setk s.indices s.nextGeneratorID s.buffer.length) id = none
      rw [lookupk_setk_ne _ _ _ _ hne]
      exact h1
    · show (if id = s.nextGeneratorID then [] else s.observed id) = []
      rw [if_neg hne]
      exact h3
    · show (if id = s.nextGeneratorID then s.produced.length else s.joinPos id) = 0
      rw [if_neg hne]
      exact h4
  · intro id c hc
    have hc' : lookupk (setk s.indices s.nextGeneratorID s.buffer.length) id
        = some c := hc
    by_cases hne : id = s.nextGeneratorID
    · subst hne
      rw [lookupk_setk_self] at hc'
      cases hc'
      exact le_rfl
    · rw [lookupk_setk_ne _ _ _ _ hne] at hc'
      exact hI.cursor_le id c hc'
  · intro id c hc
    have hc' : lookupk (setk s.indices s.nextGeneratorID s.buffer.length) id
        = some c := hc
    by_cases hne : id = s.nextGeneratorID
    · subst hne
      rw [lookupk_setk_self] at hc'
      cases hc'
      show (if s.nextGeneratorID = s.nextGeneratorID then s.produced.length
        else s.joinPos s.nextGeneratorID) ≤ s.trimmed + s.buffer.length
      rw [if_pos rfl]
      omega
    · rw [lookupk_setk_ne _ _ _ _ hne] at hc'
      show (if id = s.nextGeneratorID then s.produced.length else s.joinPos id)
        ≤ s.trimmed + c
      rw [if_neg hne]
      exact hI.join_le id c hc'
  · intro id c hc
    have hc' : lookupk (setk s.indices s.nextGeneratorID s.buffer.length) id
        = some c := hc
    by_cases hne : id = s.nextGeneratorID
    · subst hne
      rw [lookupk_setk_self] at hc'
      cases hc'
      have h0 : s.trimmed + s.buffer.length - s.produced.length = 0 := by omega
      simp [h0]
    · rw [lookupk_setk_ne _ _ _ _ hne] at hc'
      show (if id = s.nextGeneratorID then [] else s.observed id)
        = (s.produced.drop (if id = s.nextGeneratorID then s.produced.length
            else s.joinPos id)).take
          (s.trimmed + c - (if id = s.nextGeneratorID then s.produced.length
            else s.joinPos id))
      simp only [if_neg hne]
      exact hI.obs_eq id c hc'
  · intro id p hp
    have hp' : s.waiting id = some p := hp
    obtain ⟨c, hc, hcp⟩ := hI.wait_reg id p hp'
    have hne : id ≠ s.nextGeneratorID := by
      have := id_lt_next hI hc
      omega
    refine ⟨c, ?_, hcp⟩
    show lookupk (setk s.indices s.nextGeneratorID s.buffer.length) id = some c
    rw [lookupk_setk_ne _ _ _ _ hne]
    exact hc

theorem inv_clearWaiting {T : Type} {s : BState T} (hI : Inv s) (id : Nat) :
    Inv { s with waiting := fun j => if j = id then none else s.waiting j } := by
  constructor
  · exact hI.buf_eq
  · exact hI.abs_len
  · exact hI.nodupKeys
  · intro j hj
    obtain ⟨h1, h2, h3, h4⟩ := hI.fresh j hj
    refine ⟨h1, ?_, h3, h4⟩
    show (if j = id then none else s.waiting j) = none
    by_cases hje : j = id
    · rw [if_pos hje]
    · rw [if_neg hje]
      exact h2
  · exact hI.cursor_le
  · exact hI.join_le
  · exact hI.obs_eq
  · intro j p hp
    have hp' : (if j = id then none else s.waiting j) = some p := hp
    by_cases hje : j = id
    · rw [if_pos hje] at hp'
      exact absurd hp' (by simp)
    · rw [if_neg hje] at hp'
      exact hI.wait_reg j p hp'

theorem inv_cleanup {T : Type} {s : BState T} (hI : Inv s) {id : Nat}
    (hw : s.waiting id = none) : Inv (cleanup s id) := by
  have hInner : Inv { s with indices := erasek s.indices id } := by
    constructor
    · exact hI.buf_eq
    · exact hI.abs_len
    · show ((erasek s.indices id).map Prod.fst).Nodup
      exact hI.nodupKeys.sublist (keys_erasek_sublist s.indices id)
    · intro j hj
      obtain ⟨h1, h2, h3, h4⟩ := hI.fresh j hj
      refine ⟨?_, h2, h3, h4⟩
      show lookupk (erasek s.indices id) j = none
      by_cases hje : j = id
      · subst hje
        exact lookupk_erasek_self hI.nodupKeys
      · rw [lookupk_erasek_ne _ _ _ hje]
        exact h1
    · intro j c hc
      exact hI.cursor_le j c (lookupk_erasek_some hI.nodupKeys hc)
    · intro j c hc
      exact hI.join_le j c (lookupk_erasek_some hI.nodupKeys hc)
    · intro j c hc
      exact hI.obs_eq j c (lookupk_erasek_some hI.nodupKeys hc)
    · intro j p hp
      have hp' : s.waiting j = some p := hp
      obtain ⟨c, hc, hcp⟩ := hI.wait_reg j p hp'
      have hje : j ≠ id := by
        intro hje
        subst hje
        rw [hw] at hp'
        exact absurd hp' (by simp)
      refine ⟨c, ?_, hcp⟩
      show lookupk (erasek s.indices id) j = some c
      rw [lookupk_erasek_ne _ _ _ hje]
      exact hc
  exact inv_trim hInner

theorem inv_yieldStep {T : Type} {s : BState T} (hI : Inv s) {id c : Nat}
    (hc : lookupk s.indices id = some c) (hlt : c < s.buffer.length)
    (hw : s.waiting id = none) : Inv (yieldStep s id c) := by
  have hidlt : id < s.nextGeneratorID := id_lt_next hI hc
  have habs := hI.abs_len
  have hInner : Inv
      { s with
        indices := setk s.indices id (c + 1)
        observed := fun j =>
          if j = id then s.observed id ++ s.buffer[c]?.toList
          else s.observed j } := by
    constructor
    · exact hI.buf_eq
    · exact hI.abs_len
    · show ((setk s.indices id (c + 1)).map Prod.fst).Nodup
      rw [keys_setk_of_lookupk_some _ hc]
      exact hI.nodupKeys
    · intro j hj
      have hj' : s.nextGeneratorID ≤ j := hj
      have hje : j ≠ id := by omega
      obtain ⟨h1, h2, h3, h4⟩ := hI.fresh j hj'
      refine ⟨?_, h2, ?_, h4⟩
      · show lookupk (setk s.indices id (c + 1)) j = none
        rw [lookupk_setk_ne _ _ _ _ hje]
        exact h1
      · show (if j = id then s.observed id ++ s.buffer[c]?.toList
          else s.observed j) = []
        rw [if_neg hje]
        exact h3
    · intro j c' hc'
      have hc'' : lookupk (setk s.indices id (c + 1)) j = some c' := hc'
      by_cases hje : j = id
      · subst hje
        rw [lookupk_setk_self] at hc''
        cases hc''
        exact hlt
      · rw [lookupk_setk_ne _ _ _ _ hje] at hc''
        exact hI.cursor_le j c' hc''
    · intro j c' hc'
      have hc'' : lookupk (setk s.indices id (c + 1)) j = some c' := hc'
      by_cases hje : j = id
      · subst hje
        rw [lookupk_setk_self] at hc''
        cases hc''
        have := hI.join_le j c hc
        show s.joinPos j ≤ s.trimmed + (c + 1)
        omega
      · rw [lookupk_setk_ne _ _ _ _ hje] at hc''
        exact hI.join_le j c' hc''
    · intro j c' hc'
      have hc'' : lookupk (setk s.indices id (c + 1)) j = some c' := hc'
      by_cases hje : j = id
      · subst hje
        rw [lookupk_setk_self] at hc''
        cases hc''
        have h1 := hI.obs_eq j c hc
        have h2 := hI.join_le j c hc
        show (if j = j then s.observed j ++ s.buffer[c]?.toList else s.observed j)
          = (s.produced.drop (s.joinPos j)).take (s.trimmed + (c + 1) - s.joinPos j)
        rw [if_pos rfl]
        have hk : s.trimmed + (c + 1) - s.joinPos j
            = (s.trimmed + c - s.joinPos j) + 1 := by omega
        rw [hk, List.take_succ, h1]
        have hv : (s.produced.drop (s.joinPos j))[s.trimmed + c - s.joinPos j]?
            = s.buffer[c]? := by
          rw [List.getElem?_drop, hI.buf_eq, List.getElem?_drop]
          have : s.joinPos j + (s.trimmed + c - s.joinPos j) = s.trimmed + c := by
            omega
          rw [this]
        rw [hv]
      · rw [lookupk_setk_ne _ _ _ _ hje] at hc''
        show (if j = id then s.observed id ++ s.buffer[c]?.toList
            else s.observed j)
          = (s.produced.drop (s.joinPos j)).take (s.trimmed + c' - s.joinPos j)
        rw [if_neg hje]
        exact hI.obs_eq j c' hc''
    · intro j p hp
      have hp' : s.waiting j = some p := hp
      obtain ⟨cj, hcj, hcjp⟩ := hI.wait_reg j p hp'
      have hje : j ≠ id := by
        intro hje
        subst hje
        rw [hw] at hp'
        exact absurd hp' (by simp)
      refine ⟨cj, ?_, hcjp⟩
      show lookupk (setk s.indices id (c + 1)) j = some cj
      rw [lookupk_setk_ne _ _ _ _ hje]
      exact hcj
  exact inv_trim hInner

/-! ### Case equations for the pull and wake steps -/

theorem pullStep_abort {T : Type} (s : BState T) (id : Nat) :
    pullStep s id true = (cleanup s id, PullStep.done) := rfl

theorem pullStep_none {T : Type} {s : BState T} {id : Nat}
    (h : lookupk s.indices id = none) :
    pullStep s id false = (s, PullStep.done) := by
  simp [pullStep, h]

theorem pullStep_wait {T : Type} {s : BState T} {id c : Nat}
    (h : lookupk s.indices id = some c) (hc : c = s.buffer.length) :
    pullStep s id false
      = ({ s with
          signalOutstanding := true
          waiting := fun j =>
            if j = id then some s.produced.length else s.waiting j },
        PullStep.waited) := by
  simp [pullStep, h, hc]

theorem pullStep_yield {T : Type} {s : BState T} {id c : Nat}
    (h : lookupk s.indices id = some c) (hc : c ≠ s.buffer.length) :
    pullStep s id false
      = (yieldStep s id c, PullStep.yielded s.buffer[c]?) := by
  simp [pullStep, h, hc]

theorem wakeStep_abort {T : Type} (s : BState T) (id : Nat) :
    wakeStep s id true
      = (cleanup
          { s with waiting := fun j => if j = id then none else s.waiting j }
          id,
        PullStep.done) := rfl

theorem wakeStep_none {T : Type} {s : BState T} {id : Nat}
    (h : lookupk s.indices id = none) :
    wakeStep s id false
      = ({ s with waiting := fun j => if j = id then none else s.waiting j },
        PullStep.done) := by
  simp [wakeStep, h]

theorem wakeStep_yield {T : Type} {s : BState T} {id c : Nat}
    (h : lookupk s.indices id = some c) :
    wakeStep s id false
      = (yieldStep
          { s with waiting := fun j => if j = id then none else s.waiting j }
          id c,
        PullStep.yielded s.buffer[c]?) := by
  simp [wakeStep, h]

/-! ### The invariant holds in every reachable state -/

theorem inv_step {T : Type} {s s' : BState T} (hI : Inv s) (hs : Step s s') :
    Inv s' := by
  cases hs with
  | push v h => exact inv_pushValue hI v
  | pushEnd h =>
    exact ⟨hI.buf_eq, hI.abs_len, hI.nodupKeys, hI.fresh, hI.cursor_le,
      hI.join_le, hI.obs_eq, hI.wait_reg⟩
  | register => exact inv_register hI
  | pull id aborted hw =>
    cases aborted with
    | true =>
      rw [pullStep_abort]
      exact inv_cleanup hI hw
    | false =>
      cases hl : lookupk s.indices id with
      | none =>
        rw [pullStep_none hl]
        exact hI
      | some c =>
        by_cases hc : c = s.buffer.length
        · rw [pullStep_wait hl hc]
          have habs := hI.abs_len
          constructor
          · exact hI.buf_eq
          · exact hI.abs_len
          · exact hI.nodupKeys
          · intro j hj
            have hj' : s.nextGeneratorID ≤ j := hj
            obtain ⟨h1, h2, h3, h4⟩ := hI.fresh j hj'
            have hje : j ≠ id := by
              have := id_lt_next hI hl
              omega
            refine ⟨h1, ?_, h3, h4⟩
            show (if j = id then some s.produced.length else s.waiting j) = none
            rw [if_neg hje]
            exact h2
          · exact hI.cursor_le
          · exact hI.join_le
          · exact hI.obs_eq
          · intro j p hp
            have hp' : (if j = id then some s.produced.length else s.waiting j)
                = some p := hp
            by_cases hje : j = id
            · subst hje
              rw [if_pos rfl] at hp'
              cases hp'
              refine ⟨c, hl, ?_⟩
              show s.trimmed + c = s.produced.length
              omega
            · rw [if_neg hje] at hp'
              exact hI.wait_reg j p hp'
        · have hlt : c < s.buffer.length :=
            lt_of_le_of_ne (hI.cursor_le id c hl) hc
          rw [pullStep_yield hl hc]
          exact inv_yieldStep hI hl hlt hw
  | wake id aborted p hw hres =>
    have hclear := inv_clearWaiting hI id
    cases aborted with
    | true =>
      rw [wakeStep_abort]
      exact inv_cleanup hclear (by simp)
    | false =>
      have hp : p < s.produced.length := by
        rcases hres with h | h
        · exact absurd h (by simp)
        · exact h
      obtain ⟨c, hc, hcp⟩ := hI.wait_reg id p hw
      have habs := hI.abs_len
      have hlt : c < s.buffer.length := by omega
      rw [wakeStep_yield hc]
      exact inv_yieldStep hclear hc hlt (by simp)
  | exit id hw => exact inv_cleanup hI hw

theorem inv_reachable {T : Type} {s : BState T} (h : Reachable s) : Inv s := by
  induction h with
  | init => exact inv_init T
  | step hr hs ih => exact inv_step ih hs

/-! ### Frame facts -/

theorem trim_frame {T : Type} (s : BState T) :
    (trim s).produced = s.produced ∧ (trim s).pushDone = s.pushDone ∧
      (trim s).observed = s.observed ∧ (trim s).joinPos = s.joinPos ∧
      (trim s).waiting = s.waiting ∧
      (trim s).nextGeneratorID = s.nextGeneratorID ∧
      s.trimmed ≤ (trim s).trimmed := by
  cases hmc : minCursor s.indices with
  | none =>
    rw [trim_eq_of_none hmc]
    exact ⟨rfl, rfl, rfl, rfl, rfl, rfl, Nat.le_add_right _ _⟩
  | some m =>
    rcases Nat.eq_zero_or_pos m with hm | hm
    · subst hm
      rw [trim_eq_of_zero hmc]
      exact ⟨rfl, rfl, rfl, rfl, rfl, rfl, le_rfl⟩
    · rw [trim_eq_of_pos hmc hm]
      exact ⟨rfl, rfl, rfl, rfl, rfl, rfl, Nat.le_add_right _ _⟩

theorem cleanup_frame {T : Type} (s : BState T) (id : Nat) :
    (cleanup s id).produced = s.produced ∧
      (cleanup s id).pushDone = s.pushDone ∧
      (cleanup s id).observed = s.observed := by
  obtain ⟨h1, h2, h3, -⟩ := trim_frame { s with indices := erasek s.indices id }
  exact ⟨h1, h2, h3⟩

theorem yieldStep_produced {T : Type} (s : BState T) (id c : Nat) :
    (yieldStep s id c).produced = s.produced ∧
      (yieldStep s id c).pushDone = s.pushDone := by
  obtain ⟨h1, h2, -⟩ := trim_frame
    { s with
      indices := setk s.indices id (c + 1)
      observed := fun j =>
        if j = id then s.observed id ++ s.buffer[c]?.toList
        else s.observed j }
  exact ⟨h1, h2⟩

theorem pullStep_frame {T : Type} (s : BState T) (id : Nat) (b : Bool) :
    (pullStep s id b).1.produced = s.produced ∧
      (pullStep s id b).1.pushDone = s.pushDone := by
  cases b with
  | true =>
    rw [pullStep_abort]
    obtain ⟨h1, h2, -⟩ := cleanup_frame s id
    exact ⟨h1, h2⟩
  | false =>
    cases hl : lookupk s.indices id with
    | none =>
      rw [pullStep_none hl]
      exact ⟨rfl, rfl⟩
    | some c =>
      by_cases hc : c = s.buffer.length
      · rw [pullStep_wait hl hc]
        exact ⟨rfl, rfl⟩
      · rw [pullStep_yield hl hc]
        exact yieldStep_produced s id c

theorem wakeStep_frame {T : Type} (s : BState T) (id : Nat) (b : Bool) :
    (wakeStep s id b).1.produced = s.produced ∧
      (wakeStep s id b).1.pushDone = s.pushDone := by
  cases b with
  | true =>
    rw [wakeStep_abort]
    obtain ⟨h1, h2, -⟩ := cleanup_frame
      { s with waiting := fun j => if j = id then none else s.waiting j } id
    exact ⟨h1, h2⟩
  | false =>
    cases hl : lookupk s.indices id with
    | none =>
      rw [wakeStep_none hl]
      exact ⟨rfl, rfl⟩
    | some c =>
      rw [wakeStep_yield hl]
      exact yieldStep_produced _ id c

/-- After the ingestion loop has finished, no step restarts it or appends
another value: `pushDone` stays set and the production history is fixed. -/
theorem step_after_pushDone {T : Type} {s s' : BState T} (hs : Step s s')
    (h : s.pushDone = true) : s'.pushDone = true ∧ s'.produced = s.produced := by
  cases hs with
  | push v hp => rw [hp] at h; exact absurd h (by simp)
  | pushEnd hp => rw [hp] at h; exact absurd h (by simp)
  | register => exact ⟨h, rfl⟩
  | pull id aborted hw =>
    obtain ⟨h1, h2⟩ := pullStep_frame s id aborted
    exact ⟨h2.trans h, h1⟩
  | wake id aborted p hw hres =>
    obtain ⟨h1, h2⟩ := wakeStep_frame s id aborted
    exact ⟨h2.trans h, h1⟩
  | exit id hw =>
    obtain ⟨h1, h2, -⟩ := cleanup_frame s id
    exact ⟨h2.trans h, h1⟩

theorem step_produced_len_mono {T : Type} {s s' : BState T} (hs : Step s s') :
    s.produced.length ≤ s'.produced.length := by
  cases hs with
  | push v hp =>
    show s.produced.length ≤ (s.produced ++ [v]).length
    simp
  | pushEnd hp => exact le_rfl
  | register => exact le_rfl
  | pull id aborted hw =>
    exact le_of_eq (congrArg List.length (pullStep_frame s id aborted).1).symm
  | wake id aborted p hw hres =>
    exact le_of_eq (congrArg List.length (wakeStep_frame s id aborted).1).symm
  | exit id hw =>
    exact le_of_eq (congrArg List.length (cleanup_frame s id).1).symm

theorem steps_produced_len_mono {T : Type} {s s' : BState T} (hs : Steps s s') :
    s.produced.length ≤ s'.produced.length := by
  induction hs with
  | refl => exact le_rfl
  | tail h hstep ih => exact le_trans ih (step_produced_len_mono hstep)

/-! ### Cursor arithmetic across a trim and across a step -/

theorem trim_cursor {T : Type} {s : BState T} {id c : Nat}
    (hc : lookupk s.indices id = some c) :
    ∃ m, m ≤ c ∧ (trim s).trimmed = s.trimmed + m ∧
      lookupk (trim s).indices id = some (c - m) := by
  cases hmc : minCursor s.indices with
  | none =>
    exfalso
    have hnil : s.indices = [] := (minCursor_eq_none_iff _).1 hmc
    rw [hnil] at hc
    exact absurd hc (by simp [lookupk])
  | some m =>
    have hm_le : m ≤ c := minCursor_le_lookupk hmc hc
    rcases Nat.eq_zero_or_pos m with h0 | hpos
    · subst h0
      rw [trim_eq_of_zero hmc]
      exact ⟨0, Nat.zero_le c, (Nat.add_zero _).symm, by simpa using hc⟩
    · rw [trim_eq_of_pos hmc hpos]
      refine ⟨m, hm_le, rfl, ?_⟩
      have hmap : lookupk (s.indices.map fun p => (p.1, p.2 - m)) id
          = (lookupk s.indices id).map fun x => x - m :=
        lookupk_map_snd s.indices (fun x => x - m) id
      show lookupk (s.indices.map fun p => (p.1, p.2 - m)) id = some (c - m)
      rw [hmap, hc]
      rfl

theorem trim_lookup_none {T : Type} {s : BState T} {id : Nat}
    (h : lookupk s.indices id = none) :
    lookupk (trim s).indices id = none := by
  cases hmc : minCursor s.indices with
  | none =>
    rw [trim_eq_of_none hmc]
    exact h
  | some m =>
    rcases Nat.eq_zero_or_pos m with h0 | hpos
    · subst h0
      rw [trim_eq_of_zero hmc]
      exact h
    · rw [trim_eq_of_pos hmc hpos]
      have hmap : lookupk (s.indices.map fun p => (p.1, p.2 - m)) id
          = (lookupk s.indices id).map fun x => x - m :=
        lookupk_map_snd s.indices (fun x => x - m) id
      show lookupk (s.indices.map fun p => (p.1, p.2 - m)) id = none
      rw [hmap, h]
      rfl

theorem trim_inner_cursor {T : Type} {t : BState T} {id c1 c' : Nat}
    (hc1 : lookupk t.indices id = some c1)
    (hc' : lookupk (trim t).indices id = some c') :
    c' + ((trim t).trimmed - t.trimmed) = c1 := by
  obtain ⟨m, hm, htr, hl⟩ := trim_cursor hc1
  cases hl.symm.trans hc'
  rw [htr]
  omega

theorem cleanup_trimmed_mono {T : Type} (s : BState T) (id : Nat) :
    s.trimmed ≤ (cleanup s id).trimmed :=
  (trim_frame { s with indices := erasek s.indices id }).2.2.2.2.2.2

theorem yieldStep_trimmed_mono {T : Type} (s : BState T) (id c : Nat) :
    s.trimmed ≤ (yieldStep s id c).trimmed :=
  (trim_frame
    { s with
      indices := setk s.indices id (c + 1)
      observed := fun j =>
        if j = id then s.observed id ++ s.buffer[c]?.toList
        else s.observed j }).2.2.2.2.2.2

theorem step_trimmed_mono {T : Type} {s s' : BState T} (hs : Step s s') :
    s.trimmed ≤ s'.trimmed := by
  cases hs with
  | push v h => exact le_rfl
  | pushEnd h => exact le_rfl
  | register => exact le_rfl
  | pull id aborted hw =>
    cases aborted with
    | true =>
      rw [pullStep_abort]
      exact cleanup_trimmed_mono s id
    | false =>
      cases hl : lookupk s.indices id with
      | none =>
        rw [pullStep_none hl]
      | some c =>
        by_cases hc : c = s.buffer.length
        · rw [pullStep_wait hl hc]
        · rw [pullStep_yield hl hc]
          exact yieldStep_trimmed_mono s id c
  | wake id aborted p hw hres =>
    cases aborted with
    | true =>
      rw [wakeStep_abort]
      exact cleanup_trimmed_mono
        { s with waiting := fun j => if j = id then none else s.waiting j } id
    | false =>
      cases hl : lookupk s.indices id with
      | none =>
        rw [wakeStep_none hl]
      | some c =>
        rw [wakeStep_yield hl]
        exact yieldStep_trimmed_mono
          { s with waiting := fun j => if j = id then none else s.waiting j }
          id c
  | exit id hw => exact cleanup_trimmed_mono s id

theorem cleanup_cursor_shift {T : Type} {s : BState T}
    (nd : (s.indices.map Prod.fst).Nodup) {id0 id c c' : Nat}
    (hc : lookupk s.indices id = some c)
    (hc' : lookupk (cleanup s id0).indices id = some c') :
    c' + ((cleanup s id0).trimmed - s.trimmed) = c := by
  by_cases hid : id = id0
  · subst hid
    exfalso
    have hin : lookupk (erasek s.indices id) id = none := lookupk_erasek_self nd
    have hnone : lookupk (cleanup s id).indices id = none :=
      trim_lookup_none (s := { s with indices := erasek s.indices id }) hin
    rw [hnone] at hc'
    exact absurd hc' (by simp)
  · have hce : lookupk (erasek s.indices id0) id = some c := by
      rw [lookupk_erasek_ne _ _ _ hid]
      exact hc
    exact trim_inner_cursor
      (t := { s with indices := erasek s.indices id0 }) hce hc'

theorem yieldStep_cursor_shift_self {T : Type} {s : BState T} {id c0 c' : Nat}
    (hc' : lookupk (yieldStep s id c0).indices id = some c') :
    c' + ((yieldStep s id c0).trimmed - s.trimmed) = c0 + 1 := by
  have hself : lookupk (setk s.indices id (c0 + 1)) id = some (c0 + 1) :=
    lookupk_setk_self s.indices id (c0 + 1)
  exact trim_inner_cursor
    (t := { s with
      indices := setk s.indices id (c0 + 1)
      observed := fun j =>
        if j = id then s.observed id ++ s.buffer[c0]?.toList
        else s.observed j }) hself hc'

theorem yieldStep_cursor_shift_other {T : Type} {s : BState T}
    {id0 c0 id c c' : Nat} (hid : id ≠ id0)
    (hc : lookupk s.indices id = some c)
    (hc' : lookupk (yieldStep s id0 c0).indices id = some c') :
    c' + ((yieldStep s id0 c0).trimmed - s.trimmed) = c := by
  have hce : lookupk (setk s.indices id0 (c0 + 1)) id = some c := by
    rw [lookupk_setk_ne _ _ _ _ hid]
    exact hc
  exact trim_inner_cursor
    (t := { s with
      indices := setk s.indices id0 (c0 + 1)
      observed := fun j =>
        if j = id0 then s.observed id0 ++ s.buffer[c0]?.toList
        else s.observed j }) hce hc'

theorem step_cursor_shift {T : Type} {s s' : BState T} (hI : Inv s)
    (hs : Step s s') {id c c' : Nat}
    (hc : lookupk s.indices id = some c)
    (hc' : lookupk s'.indices id = some c') :
    c' + (s'.trimmed - s.trimmed) = c ∨
      c' + (s'.trimmed - s.trimmed) = c + 1 := by
  cases hs with
  | push v h =>
    have hc'' : lookupk s.indices id = some c' := hc'
    rw [hc] at hc''
    cases hc''
    left
    show c + (s.trimmed - s.trimmed) = c
    omega
  | pushEnd h =>
    have hc'' : lookupk s.indices id = some c' := hc'
    rw [hc] at hc''
    cases hc''
    left
    show c + (s.trimmed - s.trimmed) = c
    omega
  | register =>
    have hne : id ≠ s.nextGeneratorID := by
      have := id_lt_next hI hc
      omega
    have hc'' : lookupk (setk s.indices s.nextGeneratorID s.buffer.length) id
        = some c' := hc'
    rw [lookupk_setk_ne _ _ _ _ hne, hc] at hc''
    cases hc''
    left
    show c + (s.trimmed - s.trimmed) = c
    omega
  | pull id0 aborted hw =>
    cases aborted with
    | true =>
      rw [pullStep_abort] at hc' ⊢
      left
      exact cleanup_cursor_shift hI.nodupKeys hc hc'
    | false =>
      cases hl : lookupk s.indices id0 with
      | none =>
        rw [pullStep_none hl] at hc' ⊢
        have hc'' : lookupk s.indices id = some c' := hc'
        rw [hc] at hc''
        cases hc''
        left
        show c + (s.trimmed - s.trimmed) = c
        omega
      | some c0 =>
        by_cases hce : c0 = s.buffer.length
        · rw [pullStep_wait hl hce] at hc' ⊢
          have hc'' : lookupk s.indices id = some c' := hc'
          rw [hc] at hc''
          cases hc''
          left
          show c + (s.trimmed - s.trimmed) = c
          omega
        · rw [pullStep_yield hl hce] at hc' ⊢
          by_cases hid : id = id0
          · subst hid
            rw [hc] at hl
            cases hl
            right
            exact yieldStep_cursor_shift_self hc'
          · left
            exact yieldStep_cursor_shift_other hid hc hc'
  | wake id0 aborted p hw hres =>
    cases aborted with
    | true =>
      rw [wakeStep_abort] at hc' ⊢
      left
      exact cleanup_cursor_shift
        (s := { s with
          waiting := fun j => if j = id0 then none else s.waiting j })
        hI.nodupKeys hc hc'
    | false =>
      cases hl : lookupk s.indices id0 with
      | none =>
        rw [wakeStep_none hl] at hc' ⊢
        have hc'' : lookupk s.indices id = some c' := hc'
        rw [hc] at hc''
        cases hc''
        left
        show c + (s.trimmed - s.trimmed) = c
        omega
      | some c0 =>
        rw [wakeStep_yield hl] at hc' ⊢
        by_cases hid : id = id0
        · subst hid
          rw [hc] at hl
          cases hl
          right
          exact yieldStep_cursor_shift_self
            (s := { s with
              waiting := fun j => if j = id then none else s.waiting j }) hc'
        · left
          exact yieldStep_cursor_shift_other
            (s := { s with
              waiting := fun j => if j = id0 then none else s.waiting j })
            hid hc hc'
  | exit id0 hw =>
    left
    exact cleanup_cursor_shift hI.nodupKeys hc hc'

theorem steps_after_pushDone {T : Type} {s s' : BState T} (hs : Steps s s')
    (h : s.pushDone = true) :
    s'.pushDone = true ∧ s'.produced = s.produced := by
  induction hs with
  | refl => exact ⟨h, rfl⟩
  | tail hst hstep ih =>
    obtain ⟨h1, h2⟩ := ih
    obtain ⟨h3, h4⟩ := step_after_pushDone hstep h1
    exact ⟨h3, h4.trans h2⟩

theorem yieldStep_observed {T : Type} (s : BState T) (id c : Nat) :
    (yieldStep s id c).observed id
      = s.observed id ++ s.buffer[c]?.toList := by
  show (trim
    { s with
      indices := setk s.indices id (c + 1)
      observed := fun j =>
        if j = id then s.observed id ++ s.buffer[c]?.toList
        else s.observed j }).observed id
    = s.observed id ++ s.buffer[c]?.toList
  rw [congrFun (trim_frame _).2.2.1 id]
  show (if id = id then s.observed id ++ s.buffer[c]?.toList
    else s.observed id) = s.observed id ++ s.buffer[c]?.toList
  rw [if_pos rfl]

/-! ### The claims -/

/-- C1: a listener that joined before any value was produced observes the
production order exactly.  In every reachable state, the values yielded to
a listener registered at production position 0 are precisely the first
`trimmed + cursor` produced values — a duplicate-free, omission-free,
in-order front of the production history — and once the listener has
consumed the whole buffer it has observed every produced value. -/
theorem c1_early_listener_observes_production_order {T : Type}
    {s : BState T} (hr : Reachable s) {id c : Nat}
    (hc : lookupk s.indices id = some c) (hj : s.joinPos id = 0) :
    s.observed id = s.produced.take (s.trimmed + c) ∧
      (c = s.buffer.length → s.observed id = s.produced) := by
  have hI := inv_reachable hr
  have h1 := hI.obs_eq id c hc
  rw [hj] at h1
  simp only [List.drop_zero, Nat.sub_zero] at h1
  refine ⟨h1, fun hce => ?_⟩
  subst hce
  rw [h1, hI.abs_len, List.take_length]

/-- C2: with at least one registered listener (so `minCursor` is defined
and equals some `m`), a positive-minimum trim drops exactly the first `m`
buffer values, subtracts `m` from every registered cursor, and leaves the
minimum cursor at 0; a zero-minimum trim is the identity. -/
theorem c2_trim_removes_min_and_rebases {T : Type} {s : BState T} {m : Nat}
    (hmc : minCursor s.indices = some m) :
    (0 < m →
      (trim s).buffer = s.buffer.drop m ∧
      (trim s).buffer.length = s.buffer.length - m ∧
      (∀ id c, lookupk s.indices id = some c →
        lookupk (trim s).indices id = some (c - m)) ∧
      minCursor (trim s).indices = some 0) ∧
    (m = 0 → trim s = s) := by
  constructor
  · intro hm
    rw [trim_eq_of_pos hmc hm]
    refine ⟨rfl, List.length_drop m s.buffer, ?_, ?_⟩
    · intro id c hc
      have hmap : lookupk (s.indices.map fun p => (p.1, p.2 - m)) id
          = (lookupk s.indices id).map fun x => x - m :=
        lookupk_map_snd s.indices (fun x => x - m) id
      show lookupk (s.indices.map fun p => (p.1, p.2 - m)) id = some (c - m)
      rw [hmap, hc]
      rfl
    · show minCursor (s.indices.map fun p => (p.1, p.2 - m)) = some 0
      rw [minCursor_map_sub, hmc]
      simp
  · intro hm
    subst hm
    exact trim_eq_of_zero hmc

/-- C3: a freshly registered listener's cursor starts at the current
buffer length and its ghost join position at the current production
length; and in every reachable state each listener's observation log is
exactly a front slice of the production history *after* its join
position, so it never contains any value produced before it joined. -/
theorem c3_late_join_sees_only_later_values {T : Type} {s : BState T}
    (hr : Reachable s) :
    lookupk (registerListener s).1.indices s.nextGeneratorID
      = some s.buffer.length ∧
    (registerListener s).1.joinPos s.nextGeneratorID = s.produced.length ∧
    ∀ id c, lookupk s.indices id = some c →
      s.observed id
        = (s.produced.drop (s.joinPos id)).take
          (s.trimmed + c - s.joinPos id) ∧
      ∀ v ∈ s.observed id, v ∈ s.produced.drop (s.joinPos id) := by
  have hI := inv_reachable hr
  refine ⟨?_, ?_, fun id c hc => ?_⟩
  · show lookupk (setk s.indices s.nextGeneratorID s.buffer.length)
      s.nextGeneratorID = some s.buffer.length
    exact lookupk_setk_self _ _ _
  · show (if s.nextGeneratorID = s.nextGeneratorID then s.produced.length
      else s.joinPos s.nextGeneratorID) = s.produced.length
    rw [if_pos rfl]
  · have h1 := hI.obs_eq id c hc
    refine ⟨h1, fun v hv => ?_⟩
    rw [h1] at hv
    exact List.take_subset _ _ hv

/-- C4 (counterexample): after the ingestion loop has finished
(`pushDone`), a pull by a caught-up listener does *not* report completion;
it suspends on the pending-value signal.  Concretely: register a listener
on a fresh broadcaster, let upstream end, and pull. -/
theorem c4_counterexample :
    (pullStep { (registerListener (initState Nat)).1 with pushDone := true }
        0 false).2 = PullStep.waited ∧
    (pullStep { (registerListener (initState Nat)).1 with pushDone := true }
        0 false).2 ≠ PullStep.done := by
  constructor
  · rfl
  · decide

/-- C4 (amended): a pull with cursor at the buffer length after the
ingestion loop has finished suspends on the pending-value signal
(recording the current production length), and every later step keeps the
ingestion loop finished and the production history unchanged — so the
resolve-the-signal condition (a strictly larger production length) never
arises and the sequence never reports completion. -/
theorem c4_pull_after_ingestion_end_waits_forever {T : Type} {s : BState T}
    {id c : Nat} (hc : lookupk s.indices id = some c)
    (hlen : c = s.buffer.length) (hdone : s.pushDone = true) :
    (pullStep s id false).2 = PullStep.waited ∧
    (pullStep s id false).1.waiting id = some s.produced.length ∧
    ∀ s', Steps (pullStep s id false).1 s' →
      s'.pushDone = true ∧ s'.produced = s.produced := by
  have heq := pullStep_wait hc hlen
  refine ⟨by rw [heq], ?_, ?_⟩
  · rw [heq]
    show (if id = id then some s.produced.length else s.waiting id)
      = some s.produced.length
    rw [if_pos rfl]
  · intro s' hsteps
    have h1 : (pullStep s id false).1.pushDone = true := by
      rw [heq]
      exact hdone
    obtain ⟨h2, h3⟩ := steps_after_pushDone hsteps h1
    refine ⟨h2, h3.trans ?_⟩
    rw [heq]

/-- C5 (counterexample): with no registered listeners, `_trim` does *not*
leave the buffer unchanged: `Math.min()` of no arguments is `Infinity`,
the `minIndex > 0` guard passes, and `splice(0, Infinity)` empties the
buffer. -/
theorem c5_counterexample :
    ({ initState Nat with buffer := [1, 2, 3] } : BState Nat).indices
        = [] ∧
    (trim { initState Nat with buffer := [1, 2, 3] }).buffer
      ≠ ({ initState Nat with buffer := [1, 2, 3] } : BState Nat).buffer := by
  constructor
  · rfl
  · decide

/-- C5 (amended): for every state with no registered listeners, the trim
step removes *every* value from the buffer (leaving it empty), while the
registry stays empty and the production history is untouched. -/
theorem c5_trim_with_no_listeners_clears_buffer {T : Type} {s : BState T}
    (h : s.indices = []) :
    (trim s).buffer = [] ∧
      (trim s).trimmed = s.trimmed + s.buffer.length ∧
      (trim s).indices = [] ∧ (trim s).produced = s.produced := by
  have hmc : minCursor s.indices = none := (minCursor_eq_none_iff _).2 h
  rw [trim_eq_of_none hmc]
  exact ⟨rfl, rfl, h, rfl⟩

/-- C6: in every reachable state every registered cursor is at most the
buffer length (and, being a natural number, at least 0); and across every
single step, `trimmed` never decreases and each surviving cursor's
absolute position `trimmed + cursor` is either unchanged or advanced by
exactly one — equivalently, the cursor itself changes only by the step's
own advance minus the uniform trimmed amount, and in a step that trims
nothing a cursor never decreases. -/
theorem c6_cursor_bounds_and_monotonicity {T : Type} {s : BState T}
    (hr : Reachable s) :
    (∀ id c, lookupk s.indices id = some c → c ≤ s.buffer.length) ∧
    ∀ s', Step s s' →
      s.trimmed ≤ s'.trimmed ∧
      ∀ id c c', lookupk s.indices id = some c →
        lookupk s'.indices id = some c' →
        (c' + (s'.trimmed - s.trimmed) = c ∨
          c' + (s'.trimmed - s.trimmed) = c + 1) ∧
        (s'.trimmed = s.trimmed → c ≤ c') := by
  have hI := inv_reachable hr
  refine ⟨hI.cursor_le, fun s' hs =>
    ⟨step_trimmed_mono hs, fun id c c' hc hc' => ?_⟩⟩
  have hsh := step_cursor_shift hI hs hc hc'
  have hmono := step_trimmed_mono hs
  refine ⟨hsh, fun heq => ?_⟩
  rw [heq] at hsh
  rcases hsh with h | h <;> omega

/-- C7: in every reachable state, a listener suspended on the
pending-value signal whose wake condition holds (the production history
has grown past the length recorded at suspension) is still registered,
and its re-read cursor is strictly below the buffer length, so the
unchecked buffer read returns a value and the wake path yields exactly
that one value, appending it once to the listener's observation log. -/
theorem c7_wake_by_signal_reads_in_bounds {T : Type} {s : BState T}
    (hr : Reachable s) {id p : Nat} (hw : s.waiting id = some p)
    (hp : p < s.produced.length) :
    lookupk s.indices id ≠ none ∧
    ∀ c, lookupk s.indices id = some c →
      c < s.buffer.length ∧ s.buffer[c]?.isSome = true ∧
      (wakeStep s id false).2 = PullStep.yielded s.buffer[c]? ∧
      (wakeStep s id false).1.observed id
        = s.observed id ++ s.buffer[c]?.toList := by
  have hI := inv_reachable hr
  obtain ⟨c0, hc0, hcp⟩ := hI.wait_reg id p hw
  have habs := hI.abs_len
  refine ⟨by rw [hc0]; simp, fun c hc => ?_⟩
  rw [hc0] at hc
  cases hc
  have hlt : c0 < s.buffer.length := by omega
  refine ⟨hlt, ?_, ?_, ?_⟩
  · rw [List.getElem?_eq_getElem hlt]
    rfl
  · rw [wakeStep_yield hc0]
  · rw [wakeStep_yield hc0]
    show (yieldStep
        { s with waiting := fun j => if j = id then none else s.waiting j }
        id c0).observed id = s.observed id ++ s.buffer[c0]?.toList
    exact yieldStep_observed _ id c0

/-- C8: when a listener's sequence terminates — the consumer stopping at a
yield point, or the abort flag observed at the loop head or after a wait —
the cleanup path removes its registry entry and runs a trim; and an
aborted resumption reports `done` without yielding, leaving the
listener's observation log unchanged even when an unread value sits in
the buffer. -/
theorem c8_termination_cleans_up_and_never_yields_after_abort {T : Type}
    {s : BState T} (hr : Reachable s) {id c : Nat}
    (hc : lookupk s.indices id = some c) :
    lookupk (cleanup s id).indices id = none ∧
    cleanup s id = trim { s with indices := erasek s.indices id } ∧
    (pullStep s id true).2 = PullStep.done ∧
    (pullStep s id true).1.observed id = s.observed id ∧
    (wakeStep s id true).2 = PullStep.done := by
  have hI := inv_reachable hr
  refine ⟨?_, rfl, rfl, ?_, rfl⟩
  · exact trim_lookup_none (s := { s with indices := erasek s.indices id })
      (lookupk_erasek_self hI.nodupKeys)
  · show (cleanup s id).observed id = s.observed id
    exact congrFun (cleanup_frame s id).2.2 id

/-- The first resumption of a listener sequence whose cancellation signal
is already aborted: the `_values` prologue registers the listener, the
`while` guard fails immediately, and the `finally` block cleans up. -/
def startAborted {T : Type} (s : BState T) : BState T × Nat :=
  ((pullStep (registerListener s).1 (registerListener s).2 true).1,
   (registerListener s).2)

/-- C9: if the cancellation signal is already aborted when iteration
begins, the sequence completes at once having yielded nothing, and the
registry entry added by the prologue is removed again by the cleanup
path. -/
theorem c9_already_aborted_sequence_yields_nothing {T : Type} {s : BState T}
    (hr : Reachable s) :
    (pullStep (registerListener s).1 (registerListener s).2 true).2
      = PullStep.done ∧
    lookupk (startAborted s).1.indices (startAborted s).2 = none ∧
    (startAborted s).1.observed (startAborted s).2 = [] := by
  have hI := inv_reachable hr
  have hI1 : Inv (registerListener s).1 := inv_register hI
  refine ⟨rfl, ?_, ?_⟩
  · show lookupk (cleanup (registerListener s).1 s.nextGeneratorID).indices
      s.nextGeneratorID = none
    exact trim_lookup_none
      (s := { (registerListener s).1 with
        indices := erasek (registerListener s).1.indices s.nextGeneratorID })
      (lookupk_erasek_self hI1.nodupKeys)
  · show (cleanup (registerListener s).1 s.nextGeneratorID).observed
      s.nextGeneratorID = []
    rw [congrFun
      (cleanup_frame (registerListener s).1 s.nextGeneratorID).2.2
      s.nextGeneratorID]
    show (if s.nextGeneratorID = s.nextGeneratorID then []
      else s.observed s.nextGeneratorID) = []
    rw [if_pos rfl]

/-- C10: obtaining a listener sequence is pure — the broadcaster state is
untouched, no identity is allocated and no cursor registered — and only
the first pull (however many values later) registers the listener, with
its cursor at the *then-current* buffer length and its join position at
the *then-current* production length; the production history meanwhile
only grows, so every value appended between obtaining the sequence and
the first pull lies before the join position. -/
theorem c10_obtaining_sequence_is_pure {T : Type} {s s' : BState T}
    (h : Steps s s') :
    obtainSequence s = s ∧
    (registerListener s').2 = s'.nextGeneratorID ∧
    lookupk (registerListener s').1.indices s'.nextGeneratorID
      = some s'.buffer.length ∧
    (registerListener s').1.joinPos s'.nextGeneratorID
      = s'.produced.length ∧
    s.produced.length ≤ s'.produced.length := by
  refine ⟨rfl, rfl, ?_, ?_, steps_produced_len_mono h⟩
  · show lookupk (setk s'.indices s'.nextGeneratorID s'.buffer.length)
      s'.nextGeneratorID = some s'.buffer.length
    exact lookupk_setk_self _ _ _
  · show (if s'.nextGeneratorID = s'.nextGeneratorID then s'.produced.length
      else s'.joinPos s'.nextGeneratorID) = s'.produced.length
    rw [if_pos rfl]

/-! ### Concrete executions witnessing the claims -/

/-- Register a listener on a fresh broadcaster, ingest `5`, yield it. -/
def exC1 : BState Nat :=
  (pullStep (pushValue (registerListener (initState Nat)).1 5) 0 false).1

theorem exC1_reachable : Reachable exC1 :=
  Reachable.step
    (Reachable.step
      (Reachable.step Reachable.init (Step.register (initState Nat)))
      (Step.push (registerListener (initState Nat)).1 5 rfl))
    (Step.pull (pushValue (registerListener (initState Nat)).1 5) 0 false rfl)

theorem c1_witness :
    exC1.observed 0 = exC1.produced.take (exC1.trimmed + 0) :=
  (@c1_early_listener_observes_production_order Nat exC1 exC1_reachable 0 0
    (by decide) (by decide)).1

/-- Four buffered values, two listeners at cursors 2 and 3. -/
def exC2 : BState Nat :=
  { initState Nat with
    buffer := [10, 20, 30, 40]
    indices := [(0, 2), (1, 3)] }

theorem c2_witness :
    (trim exC2).buffer = exC2.buffer.drop 2 ∧
      minCursor (trim exC2).indices = some 0 :=
  ⟨((@c2_trim_removes_min_and_rebases Nat exC2 2 (by decide)).1
      (by decide)).1,
   ((@c2_trim_removes_min_and_rebases Nat exC2 2 (by decide)).1
      (by decide)).2.2.2⟩

/-- Two values ingested, then a listener joins, then a third value is
ingested and pulled by that listener. -/
def exC3 : BState Nat :=
  (pullStep
    (pushValue
      (registerListener (pushValue (pushValue (initState Nat) 1) 2)).1 3)
    0 false).1

theorem exC3_reachable : Reachable exC3 :=
  Reachable.step
    (Reachable.step
      (Reachable.step
        (Reachable.step
          (Reachable.step Reachable.init (Step.push (initState Nat) 1 rfl))
          (Step.push (pushValue (initState Nat) 1) 2 rfl))
        (Step.register (pushValue (pushValue (initState Nat) 1) 2)))
      (Step.push
        (registerListener (pushValue (pushValue (initState Nat) 1) 2)).1 3
        rfl))
    (Step.pull
      (pushValue
        (registerListener (pushValue (pushValue (initState Nat) 1) 2)).1 3)
      0 false rfl)

theorem c3_witness :
    exC3.observed 0
      = (exC3.produced.drop (exC3.joinPos 0)).take
        (exC3.trimmed + 0 - exC3.joinPos 0) :=
  ((@c3_late_join_sees_only_later_values Nat exC3 exC3_reachable).2.2 0 0
    (by decide)).1

/-- A registered listener on a broadcaster whose upstream has ended. -/
def exC4 : BState Nat :=
  { (registerListener (initState Nat)).1 with pushDone := true }

theorem c4_witness : (pullStep exC4 0 false).2 = PullStep.waited :=
  (@c4_pull_after_ingestion_end_waits_forever Nat exC4 0 0 (by decide)
    (by decide) rfl).1

/-- A buffer with two values and no listeners. -/
def exC5 : BState Nat := { initState Nat with buffer := [7, 8] }

theorem c5_witness :
    (trim exC5).buffer = [] ∧
      (trim exC5).trimmed = exC5.trimmed + exC5.buffer.length :=
  ⟨(@c5_trim_with_no_listeners_clears_buffer Nat exC5 rfl).1,
   (@c5_trim_with_no_listeners_clears_buffer Nat exC5 rfl).2.1⟩

/-- Same execution as `exC1`, for the cursor-invariant claim. -/
def exC6 : BState Nat :=
  (pullStep (pushValue (registerListener (initState Nat)).1 5) 0 false).1

theorem exC6_reachable : Reachable exC6 :=
  Reachable.step
    (Reachable.step
      (Reachable.step Reachable.init (Step.register (initState Nat)))
      (Step.push (registerListener (initState Nat)).1 5 rfl))
    (Step.pull (pushValue (registerListener (initState Nat)).1 5) 0 false rfl)

theorem c6_witness :
    ((0 : Nat) ≤ exC6.buffer.length) ∧
      exC6.trimmed ≤ (pushValue exC6 9).trimmed :=
  ⟨(@c6_cursor_bounds_and_monotonicity Nat exC6 exC6_reachable).1 0 0
      (by decide),
   ((@c6_cursor_bounds_and_monotonicity Nat exC6 exC6_reachable).2
      (pushValue exC6 9) (Step.push exC6 9 (by decide))).1⟩

/-- A listener suspends on the empty buffer; `7` is then ingested,
resolving the signal it awaits. -/
def exC7 : BState Nat :=
  pushValue (pullStep (registerListener (initState Nat)).1 0 false).1 7

theorem exC7_reachable : Reachable exC7 :=
  Reachable.step
    (Reachable.step
      (Reachable.step Reachable.init (Step.register (initState Nat)))
      (Step.pull (registerListener (initState Nat)).1 0 false rfl))
    (Step.push (pullStep (registerListener (initState Nat)).1 0 false).1 7
      rfl)

theorem c7_witness :
    0 < exC7.buffer.length ∧
      (wakeStep exC7 0 false).2 = PullStep.yielded exC7.buffer[0]? :=
  ⟨((@c7_wake_by_signal_reads_in_bounds Nat exC7 exC7_reachable 0 0
      (by decide) (by decide)).2 0 (by decide)).1,
   ((@c7_wake_by_signal_reads_in_bounds Nat exC7 exC7_reachable 0 0
      (by decide) (by decide)).2 0 (by decide)).2.2.1⟩

/-- Same execution as `exC1`, for the termination-cleanup claim. -/
def exC8 : BState Nat :=
  (pullStep (pushValue (registerListener (initState Nat)).1 5) 0 false).1

theorem exC8_reachable : Reachable exC8 :=
  Reachable.step
    (Reachable.step
      (Reachable.step Reachable.init (Step.register (initState Nat)))
      (Step.push (registerListener (initState Nat)).1 5 rfl))
    (Step.pull (pushValue (registerListener (initState Nat)).1 5) 0 false rfl)

theorem c8_witness :
    lookupk (cleanup exC8 0).indices 0 = none ∧
      (pullStep exC8 0 true).2 = PullStep.done :=
  ⟨(@c8_termination_cleans_up_and_never_yields_after_abort Nat exC8
      exC8_reachable 0 0 (by decide)).1,
   (@c8_termination_cleans_up_and_never_yields_after_abort Nat exC8
      exC8_reachable 0 0 (by decide)).2.2.1⟩

theorem c9_witness :
    (pullStep (registerListener (initState Nat)).1
        (registerListener (initState Nat)).2 true).2 = PullStep.done ∧
      lookupk (startAborted (initState Nat)).1.indices
        (startAborted (initState Nat)).2 = none :=
  ⟨(@c9_already_aborted_sequence_yields_nothing Nat (initState Nat)
      Reachable.init).1,
   (@c9_already_aborted_sequence_yields_nothing Nat (initState Nat)
      Reachable.init).2.1⟩

theorem c10_witness :
    lookupk (registerListener (pushValue (initState Nat) 3)).1.indices
        (pushValue (initState Nat) 3).nextGeneratorID
      = some (pushValue (initState Nat) 3).buffer.length ∧
      (initState Nat).produced.length
        ≤ (pushValue (initState Nat) 3).produced.length :=
  ⟨(@c10_obtaining_sequence_is_pure Nat (initState Nat)
      (pushValue (initState Nat) 3)
      (Steps.tail (Steps.refl (initState Nat))
        (Step.push (initState Nat) 3 rfl))).2.2.1,
   (@c10_obtaining_sequence_is_pure Nat (initState Nat)
      (pushValue (initState Nat) 3)
      (Steps.tail (Steps.refl (initState Nat))
        (Step.push (initState Nat) 3 rfl))).2.2.2.2⟩

end AsyncBroadcaster
